import Mathlib

/-!
# Verification of the tlock-rs timelock-encryption core

This file is a shallow embedding, in Lean 4, of the Rust sources of the
`tlock-rs` repository (crates `tlock` and `tlock_age`), together with proofs
about the embedded definitions.

Conventions of the embedding:

* Bytes are `Nat` values (< 256 wherever the Rust code produces them);
  byte strings are `List Nat`.
* Rust `Result` values, together with the possibility of a panic
  (`assert!`, `unwrap`, out-of-bounds slicing), are modelled by the
  `Outcome` type below: `ok`, `err`, or `panic`.
* The BLS12-381 curve arithmetic, the SHA-256 compression function and the
  hash-to-curve mappers are external libraries for the Rust code
  (`ark_bls12_381`, `sha2`); they are modelled as the fields of a `Model`
  structure, so every theorem is stated for an arbitrary model and the laws
  the libraries guarantee (bilinearity of the pairing, serialization
  round-trips, hash output lengths) appear as explicit hypotheses.
  The scalar-field byte-level facts that the code itself relies on
  (`from_le_bytes_mod_order` never fails, an `Fr` always serializes to
  32 bytes) are embedded concretely with the actual BLS12-381 scalar
  field order.
-/

set_option maxRecDepth 4000

/-- Rust computation result: a value, a typed error (`Result::Err`), or a
panic (`assert!` failure, `unwrap` on an error, slice out of bounds). -/
inductive Outcome (ε α : Type) where
  | ok (a : α)
  | err (e : ε)
  | panic
  deriving DecidableEq, Repr

namespace Outcome

def bind {ε α β : Type} : Outcome ε α → (α → Outcome ε β) → Outcome ε β
  | ok a, f => f a
  | err e, _ => err e
  | panic, _ => panic

instance {ε : Type} : Monad (Outcome ε) where
  pure := ok
  bind := bind

/-- Rust `.unwrap()` on a `Result`: the value on `Ok`, a panic on `Err`.
Panics propagate. -/
def unwrapRes {ε ε' α : Type} : Outcome ε α → Outcome ε' α
  | ok a => ok a
  | err _ => panic
  | panic => panic

@[simp] theorem bind_ok {ε α β : Type} (a : α) (f : α → Outcome ε β) :
    bind (ok a) f = f a := rfl

@[simp] theorem bind_err {ε α β : Type} (e : ε) (f : α → Outcome ε β) :
    bind (err e) f = err e := rfl

@[simp] theorem bind_panic {ε α β : Type} (f : α → Outcome ε β) :
    bind (panic : Outcome ε α) f = panic := rfl

@[simp] theorem pure_eq_ok {ε α : Type} (a : α) :
    (pure a : Outcome ε α) = ok a := rfl

@[simp] theorem monad_bind_eq_bind {ε α β : Type} (x : Outcome ε α)
    (f : α → Outcome ε β) : x >>= f = bind x f := rfl

end Outcome

instance {ε α : Type} [DecidableEq ε] [DecidableEq α] :
    DecidableEq (Except ε α) := fun x y =>
  match x, y with
  | .ok a, .ok b =>
    if h : a = b then .isTrue (by rw [h]) else .isFalse (by simp [h])
  | .error a, .error b =>
    if h : a = b then .isTrue (by rw [h]) else .isFalse (by simp [h])
  | .ok _, .error _ => .isFalse (by simp)
  | .error _, .ok _ => .isFalse (by simp)

/-- The error enumeration `IBEError` of `tlock/src/ibe.rs`, variant for
variant (there is, in particular, no `DecryptionFailed` variant). -/
inductive IBEError where
  | hashToCurve
  | mapperInitialisation
  | messageSize
  | pairing
  | publicKeySize
  | serialisation
  | unknown
  deriving DecidableEq, Repr

/-! ## Byte-string utilities -/

/-- `fn xor(a, b)` of `tlock/src/ibe.rs`: panics when the lengths differ,
otherwise the pointwise XOR. -/
def xorB {ε : Type} (a b : List Nat) : Outcome ε (List Nat) :=
  if a.length = b.length then .ok (List.zipWith Nat.xor a b) else .panic

/-- Big-endian byte string of fixed width `k` (Rust `u64::to_be_bytes` for
`k = 8`). -/
def beBytes (k n : Nat) : List Nat :=
  (List.range k).reverse.map fun i => n / 256 ^ i % 256

/-- Little-endian byte string of fixed width `k` (Rust `u16::to_le_bytes` for
`k = 2`). -/
def leBytes (k n : Nat) : List Nat :=
  (List.range k).map fun i => n / 256 ^ i % 256

/-- The natural number represented by a little-endian byte string. -/
def leValue (l : List Nat) : Nat :=
  match l with
  | [] => 0
  | b :: rest => b + 256 * leValue rest

/-- ASCII bytes of the literal `"IBE-H2"` domain-separation label. -/
def ibeH2Label : List Nat := [73, 66, 69, 45, 72, 50]

/-- ASCII bytes of the literal `"IBE-H3"` domain-separation label. -/
def ibeH3Label : List Nat := [73, 66, 69, 45, 72, 51]

/-- ASCII bytes of the literal `"IBE-H4"` domain-separation label. -/
def ibeH4Label : List Nat := [73, 66, 69, 45, 72, 52]

/-- The byte string hashed under the `"IBE-H2"` label in `ibe::encrypt`
(step 5) and `ibe::decrypt` (step 1): the label followed by the Gt
serialization with **all of its bytes reversed**
(`r_gid.into_iter().rev()`). -/
def ibeH2Input (gtSer : List Nat) : List Nat :=
  ibeH2Label ++ gtSer.reverse

/-- Split a list into chunks of `n + 1` elements (the last chunk may be
shorter). Helper used to state the specification's `rev_chunks` operation. -/
def toChunksSucc {α : Type} (n : Nat) : List α → List (List α)
  | [] => []
  | x :: xs => (x :: xs.take n) :: toChunksSucc n (xs.drop n)
  termination_by l => l.length
  decreasing_by
    simp only [List.length_cons, List.length_drop]
    omega

/-- Split a byte string into 48-byte chunks. -/
def toChunks48 (l : List Nat) : List (List Nat) := toChunksSucc 47 l

/-- Modelled from the spec: the `rev_chunks(·, 48)` operation of §4.1/§9.4,
which "splits the Gt serialization into 48-byte chunks and reverses their
order", keeping the bytes inside each chunk in their original order.
This definition follows the spec's words; it is compared against the
byte-reversal the code actually performs. -/
def revChunksSpec (l : List Nat) : List Nat :=
  (toChunks48 l).reverse.flatten

/-! ## The scalar field and `expand_message_drand`

`ExpandMsgDrand::expand_message` of `tlock/src/ibe.rs` works over the
concrete BLS12-381 scalar field `Fr` of `ark_bls12_381`; its byte-level
behaviour is embedded concretely. -/

/-- The order of the BLS12-381 scalar field `Fr`
(`0x73eda753299d7d483339d80809a1d80553bda402fffe5bfeffffffff00000001`). -/
def frOrder : Nat :=
  52435875175126190479447740508185965837690552500527637822603658699938581184513

/-- `ScalarField::from_le_bytes_mod_order`: interpret a little-endian byte
string and reduce modulo the field order. It is total — it never rejects
its input. -/
def frFromLeBytesModOrder (l : List Nat) : Nat :=
  leValue l % frOrder

/-- `serialized_size(Compress::Yes)` of an `ark_bls12_381` `Fr` element: the
compressed size of a prime-field element is the byte size of its modulus,
32 bytes, for every element. -/
def frSerializedSize (_x : Nat) : Nat := 32

/-- One candidate of the `expand_message_drand` loop for counter `i`:
hash `i.to_le_bytes() || msg`, right-shift the first byte by 1
(`BITS_TO_MASK_FOR_BLS12381 = 1`), and reverse the whole buffer.
Panics when the hash output is empty (`h.first_mut().unwrap()`). -/
def expandCandidate {ε : Type} (sha : List Nat → List Nat) (msg : List Nat)
    (i : Nat) : Outcome ε (List Nat) :=
  match sha (leBytes 2 i ++ msg) with
  | [] => .panic
  | b :: rest => .ok (List.reverse ((b / 2) :: rest))

/-- The `for i in 1..u16::MAX` loop of `expand_message`, with explicit fuel.
`buf` is the caller's output buffer (`[0u8; 32]`); if the loop falls
through, the buffer is returned unchanged. A candidate is accepted when
`from_le_bytes_mod_order` followed by `serialized_size > 0` succeeds;
`buf.copy_from_slice` panics when the candidate length differs from the
buffer length. -/
def expandLoop {ε : Type} (sha : List Nat → List Nat) (msg buf : List Nat) :
    Nat → Nat → Outcome ε (List Nat)
  | _, 0 => .ok buf
  | i, fuel + 1 =>
    Outcome.bind (expandCandidate sha msg i) fun rev =>
      if frSerializedSize (frFromLeBytesModOrder rev) > 0 then
        if rev.length = buf.length then .ok rev else .panic
      else
        expandLoop sha msg buf (i + 1) fuel

/-- `ExpandMsgDrand::<Sha256>::expand_message(msg, _dst, buf)`: the Rust
range `1..u16::MAX` runs the counter over `1, 2, …, 65534`
(65534 iterations; `u16::MAX = 65535` is excluded). -/
def expandMessageDrand {ε : Type} (sha : List Nat → List Nat)
    (msg buf : List Nat) : Outcome ε (List Nat) :=
  expandLoop sha msg buf 1 65534

/-! ## The abstract model of the external cryptographic libraries -/

/-- Operations the Rust code imports from `ark_bls12_381` / `sha2`.
`R` is the scalar-field type as the group operations consume it
(`ScalarField`), `G1`/`G2`/`GT` the curve groups.

* `beq1`/`beq2` — `PartialEq` on affine points.
* `gen1`/`gen2` — `G1Affine::generator()` / `G2Affine::generator()`.
* `smul1`/`smul2` — `g.mul(s).into_affine()`.
* `smulT` — `PairingOutput::mul`.
* `pair` — `Bls12_381::pairing` (first argument in G1).
* `mapToG1`/`mapToG2` — the `MapToCurveBasedHasher` hash-to-curve mappers
  (their initialisation and hashing failures, `MapperInitialisation` and
  `HashToCurve`, never occur for the fixed domain-separation tags, and the
  mappers are modelled as total functions).
* `ser1`/`ser2`/`serT` — compressed `serialize_with_mode` byte strings.
* `deser1`/`deser2` — compressed deserialization.
* `fromLe` — `ScalarField::from_le_bytes_mod_order` producing a scalar
  of type `R`.
* `sha` — SHA-256. -/
structure Model where
  R : Type
  G1 : Type
  G2 : Type
  GT : Type
  beq1 : G1 → G1 → Bool
  beq2 : G2 → G2 → Bool
  gen1 : G1
  gen2 : G2
  smul1 : G1 → R → G1
  smul2 : G2 → R → G2
  smulT : GT → R → GT
  pair : G1 → G2 → GT
  mapToG1 : List Nat → G1
  mapToG2 : List Nat → G2
  ser1 : G1 → List Nat
  ser2 : G2 → List Nat
  serT : GT → List Nat
  deser1 : List Nat → Option G1
  deser2 : List Nat → Option G2
  fromLe : List Nat → R
  sha : List Nat → List Nat

/-- The `GAffine` enum of `tlock/src/ibe.rs`: a tagged G1 or G2 affine
point. -/
inductive GAffine (M : Model) where
  | g1 (g : M.G1)
  | g2 (g : M.G2)

instance {M : Model} [DecidableEq M.G1] [DecidableEq M.G2] :
    DecidableEq (GAffine M) := fun x y =>
  match x, y with
  | .g1 a, .g1 b =>
    if h : a = b then .isTrue (by rw [h]) else .isFalse (by simp [h])
  | .g1 _, .g2 _ => .isFalse (by simp)
  | .g2 _, .g1 _ => .isFalse (by simp)
  | .g2 a, .g2 b =>
    if h : a = b then .isTrue (by rw [h]) else .isFalse (by simp [h])

namespace GAffine

variable {M : Model}

/-- `PartialEq` on `GAffine`: same variant and equal points. -/
def beq : GAffine M → GAffine M → Bool
  | g1 a, g1 b => M.beq1 a b
  | g2 a, g2 b => M.beq2 a b
  | _, _ => false

/-- `GAffine::projective_pairing(&self, id)`: hash the identity into the
opposite group and pair (G1 argument first). -/
def projectivePairing : GAffine M → List Nat → M.GT
  | g1 g, id => M.pair g (M.mapToG2 id)
  | g2 g, id => M.pair (M.mapToG1 id) g

/-- `GAffine::pairing(&self, other)`: pair two points of opposite groups,
`Err(IBEError::Pairing)` when both live in the same group. -/
def pairing : GAffine M → GAffine M → Outcome IBEError M.GT
  | g1 s, g2 o => .ok (M.pair s o)
  | g2 s, g1 o => .ok (M.pair o s)
  | _, _ => .err .pairing

/-- `GAffine::generator(&self)`: the generator of the same group. -/
def generator : GAffine M → GAffine M
  | g1 _ => g1 M.gen1
  | g2 _ => g2 M.gen2

/-- `GAffine::mul(&self, s)`: scalar multiplication inside the variant. -/
def mul : GAffine M → M.R → GAffine M
  | g1 g, s => g1 (M.smul1 g s)
  | g2 g, s => g2 (M.smul2 g s)

/-- `GAffine::to_compressed(&self)`: compressed serialization (the
`Serialisation` error corresponds to a write failure of the in-memory
vector, which cannot occur). -/
def toCompressed : GAffine M → List Nat
  | g1 g => M.ser1 g
  | g2 g => M.ser2 g

/-- `GAffine::try_from(&[u8])`: 48 bytes deserialize into G1, 96 bytes
into G2, anything else (including a failed point deserialization) is
`Err(IBEError::PublicKeySize)`. -/
def tryFromBytes (M : Model) (bytes : List Nat) : Outcome IBEError (GAffine M) :=
  if bytes.length = 48 then
    match M.deser1 bytes with
    | some g => .ok (g1 g)
    | none => .err .publicKeySize
  else if bytes.length = 96 then
    match M.deser2 bytes with
    | some g => .ok (g2 g)
    | none => .err .publicKeySize
  else
    .err .publicKeySize

end GAffine

/-! ## The IBE primitive (`tlock/src/ibe.rs`) -/

/-- The `Ciphertext` struct: `u` is a curve point, `v` and `w` byte
strings. -/
structure Ciphertext (M : Model) where
  u : GAffine M
  v : List Nat
  w : List Nat

/-- `rng.sample(Uniform::new(0u8, 8u8))`: the `rand` crate's
`Uniform::new(lo, hi)` samples uniformly from the half-open interval
`[lo, hi)`; a raw RNG draw is mapped into the range. -/
def uniformSample (lo hi raw : Nat) : Nat := lo + raw % (hi - lo)

/-- Step 2 of `ibe::encrypt`: the 16 random sigma bytes, one
`Uniform::new(0u8, 8u8)` sample per byte. The RNG stream is modelled as a
function from the draw index to the raw draw. -/
def sigmaBytes (rng : Nat → Nat) : List Nat :=
  (List.range 16).map fun k => uniformSample 0 8 (rng k)

/-- `&hash.to_vec()[0..16]`: the first 16 bytes of a hash output; the slice
panics when the output is shorter. -/
def take16 {ε : Type} (l : List Nat) : Outcome ε (List Nat) :=
  if l.length < 16 then .panic else .ok (l.take 16)

/-- `&l[l.len() - 16..]`: the last 16 bytes; the index computation panics
when the string is shorter. -/
def last16 {ε : Type} (l : List Nat) : Outcome ε (List Nat) :=
  if l.length < 16 then .panic else .ok (l.drop (l.length - 16))

/-- `ibe::encrypt(master, id, msg)`, with the RNG stream explicit.
Follows the six numbered steps of the source; `BLOCK_SIZE = 32`. -/
def ibeEncrypt (M : Model) (master : GAffine M) (id msg : List Nat)
    (rng : Nat → Nat) : Outcome IBEError (Ciphertext M) :=
  -- assert!(msg.len() <= BLOCK_SIZE)
  if msg.length > 32 then .panic else
  -- 1. Compute Gid = e(master, Q_id)
  let gid := master.projectivePairing id
  -- 2. Derive random sigma (the `try_into` to [u8; 16] is
  --    `map_err(|_| IBEError::MessageSize)`)
  let sigma := sigmaBytes rng
  if sigma.length = 16 then
    -- 3. Derive r from sigma and msg
    Outcome.bind
      (expandMessageDrand M.sha (M.sha (ibeH3Label ++ sigma ++ msg))
        (List.replicate 32 0)) fun buf =>
    let r := M.fromLe buf
    -- 4. Compute U = G^r
    let u := master.generator.mul r
    -- 5. Compute V = sigma XOR H(rGid)
    let rGid := M.smulT gid r
    Outcome.bind (take16 (M.sha (ibeH2Input (M.serT rGid)))) fun hRGit =>
    Outcome.bind (xorB sigma hRGit) fun v =>
    -- 6. Compute W = M XOR H(sigma)
    Outcome.bind (take16 (M.sha (ibeH4Label ++ sigma))) fun hSigma =>
    Outcome.bind (xorB msg hSigma) fun w =>
    .ok ⟨u, v, w⟩
  else .err .messageSize

/-- Step 1 of `ibe::decrypt`: recover sigma as
`V XOR H2(e(private, U))`. -/
def ibeDecryptSigma (M : Model) (priv : GAffine M) (c : Ciphertext M) :
    Outcome IBEError (List Nat) :=
  Outcome.bind (priv.pairing c.u) fun rGidOut =>
  Outcome.bind (take16 (M.sha (ibeH2Input (M.serT rGidOut)))) fun hRGit =>
  Outcome.bind (last16 c.v) fun vLast =>
  xorB hRGit vLast

/-- Step 2 of `ibe::decrypt`: recover the message as
`W XOR H4(sigma)`. -/
def ibeDecryptMsg (M : Model) (c : Ciphertext M) (sigma : List Nat) :
    Outcome IBEError (List Nat) :=
  Outcome.bind (take16 (M.sha (ibeH4Label ++ sigma))) fun hSigma =>
  Outcome.bind (last16 c.w) fun wLast =>
  xorB hSigma wLast

/-- Step 3 of `ibe::decrypt`: recompute `G^r` from the recovered sigma and
message. -/
def ibeDecryptRG (M : Model) (c : Ciphertext M) (sigma msg : List Nat) :
    Outcome IBEError (GAffine M) :=
  Outcome.bind
    (expandMessageDrand M.sha (M.sha (ibeH3Label ++ sigma ++ msg))
      (List.replicate 32 0)) fun buf =>
  .ok (c.u.generator.mul (M.fromLe buf))

/-- `ibe::decrypt(private, c)`. The final consistency check is
`assert_eq!(c.u, r_g)` — a panic, not an error, when it fails. -/
def ibeDecrypt (M : Model) (priv : GAffine M) (c : Ciphertext M) :
    Outcome IBEError (List Nat) :=
  -- assert!(c.w.len() <= BLOCK_SIZE)
  if c.w.length > 32 then .panic else
  Outcome.bind (ibeDecryptSigma M priv c) fun sigma =>
  Outcome.bind (ibeDecryptMsg M c sigma) fun msg =>
  Outcome.bind (ibeDecryptRG M c sigma msg) fun rG =>
  if GAffine.beq c.u rG then .ok msg else .panic

/-! ## The tlock framing layer (`tlock/src/lib.rs`) -/

/-- Errors of the `tlock` wrapper: `anyhow` I/O read errors, or an
`IBEError` propagated by `?`. -/
inductive TlockError where
  | io
  | ibe (e : IBEError)
  deriving DecidableEq, Repr

/-- `time_lock(public_key_bytes, round_number, message)`:
`GAffine::try_from(public_key_bytes).unwrap()` (a panic on a bad key),
identity `= &SHA256(round_number.to_be_bytes())[0..32]`, then
`ibe::encrypt`. -/
def timeLock (M : Model) (rng : Nat → Nat) (pkBytes : List Nat)
    (round : Nat) (message : List Nat) : Outcome IBEError (Ciphertext M) :=
  Outcome.bind (Outcome.unwrapRes (GAffine.tryFromBytes M pkBytes))
    fun publicKey =>
  let hash := M.sha (beBytes 8 round)
  if hash.length < 32 then .panic else
  ibeEncrypt M publicKey (hash.take 32) message rng

/-- `tlock::encrypt(dst, src, public_key_bytes, round_number)`.
`src.read(&mut message)` fills a zeroed 16-byte buffer with up to 16 bytes
of `src`; the result value is the byte string written to `dst`
(`U.to_compressed() || V || W`). The `time_lock` result is used directly
as the ciphertext, so an error outcome aborts the call (modelled as a
panic) and nothing is written. -/
def tlockEncrypt (M : Model) (rng : Nat → Nat) (src pkBytes : List Nat)
    (round : Nat) : Outcome TlockError (List Nat) :=
  let message := src.take 16 ++ List.replicate (16 - src.length) 0
  match timeLock M rng pkBytes round message with
  | .ok ct => .ok (ct.u.toCompressed ++ ct.v ++ ct.w)
  | .err _ => .panic
  | .panic => .panic

/-- `time_unlock(signature, c)`: `signature.try_into().unwrap()` (panic on
bad signature bytes), then `ibe::decrypt`, whose `Result` is used directly
as the plaintext (modelled as unwrap). -/
def timeUnlock (M : Model) (signature : List Nat) (c : Ciphertext M) :
    Outcome TlockError (List Nat) :=
  Outcome.bind (Outcome.unwrapRes (GAffine.tryFromBytes M signature))
    fun priv =>
  Outcome.unwrapRes (ibeDecrypt M priv c)

/-- The `rposition(|x| *x != 0)` of `tlock::decrypt`: the index (counted
from the front) of the last nonzero byte. -/
def rpositionNonzero (l : List Nat) : Option Nat :=
  (l.reverse.findIdx? fun x => x != 0).map fun j => l.length - 1 - j

/-- The trailing-zero trimming of `tlock::decrypt`: truncate after the last
nonzero byte when one exists, keep the plaintext unchanged otherwise. -/
def trimTrailingZeros (l : List Nat) : List Nat :=
  match rpositionNonzero l with
  | some i => l.take (i + 1)
  | none => l

/-- The ciphertext parsing stage of `tlock::decrypt(dst, src, signature)`:
read `U` (96 bytes when `signature.len() == G1_SIZE`, 48 otherwise), then
16 bytes of `V` and 16 bytes of `W`, both left-padded with 16 zero bytes
(`[[0u8; 16], v].concat()`); parse `U`
(`u.as_slice().try_into()?` propagates the `IBEError`). -/
def tlockDecryptParse (M : Model) (src signature : List Nat) :
    Outcome TlockError (Ciphertext M) :=
  let usize := if signature.length = 48 then 96 else 48
  if src.length < usize then .err .io else
  let ubytes := src.take usize
  let rest := src.drop usize
  if rest.length < 16 then .err .io else
  let v := List.replicate 16 0 ++ rest.take 16
  let rest2 := rest.drop 16
  if rest2.length < 16 then .err .io else
  let w := List.replicate 16 0 ++ rest2.take 16
  match GAffine.tryFromBytes M ubytes with
  | .ok u => .ok ⟨u, v, w⟩
  | .err e => .err (TlockError.ibe e)
  | .panic => .panic

/-- `tlock::decrypt(dst, src, signature)`: parse the ciphertext,
`time_unlock`, trim trailing zeros; the `ok` value is the byte string
written to `dst`. -/
def tlockDecrypt (M : Model) (src signature : List Nat) :
    Outcome TlockError (List Nat) :=
  Outcome.bind (tlockDecryptParse M src signature) fun c =>
  Outcome.bind (timeUnlock M signature c) fun pt =>
  .ok (trimTrailingZeros pt)

/-! ## Decimal and hex codecs used by the age-stanza binding -/

/-- The decimal digits of a natural number, most significant first
(`u64::to_string` digit sequence). -/
def natDigits (n : Nat) : List Nat :=
  if _h : n < 10 then [n]
  else natDigits (n / 10) ++ [n % 10]
  termination_by n
  decreasing_by
    exact Nat.div_lt_self (by omega) (by omega)

/-- The ASCII character of a decimal digit. -/
def digitChar (d : Nat) : Char := Char.ofNat (48 + d)

/-- `round.to_string()` for a `u64` round: the decimal ASCII string. -/
def decimalRepr (n : Nat) : String :=
  String.mk ((natDigits n).map digitChar)

/-- Whether a character is an ASCII decimal digit. -/
def isDigitChar (c : Char) : Bool := 48 ≤ c.toNat && c.toNat ≤ 57

/-- The value of a decimal ASCII digit string, most significant first. -/
def digitsVal (cs : List Char) : Nat :=
  cs.foldl (fun a c => 10 * a + (c.toNat - 48)) 0

/-- Rust `str::parse::<u64>()`: an optional leading `+`, then one or more
ASCII decimal digits, value below `2^64`; anything else is an error. -/
def parseU64 (s : String) : Option Nat :=
  let cs := match s.data with
            | c :: rest => if c = '+' then rest else c :: rest
            | [] => []
  if cs = [] then none
  else if cs.all isDigitChar then
    let v := digitsVal cs
    if v < 2 ^ 64 then some v else none
  else none

/-- The lowercase hex character of a value below 16 (`hex::encode`). -/
def hexChar (d : Nat) : Char :=
  if d < 10 then Char.ofNat (48 + d) else Char.ofNat (87 + d)

/-- `hex::encode`: two lowercase hex characters per byte. -/
def hexEncode (l : List Nat) : String :=
  String.mk ((l.map fun b => [hexChar (b / 16), hexChar (b % 16)]).flatten)

/-- The value of one hex character (`0-9a-fA-F`), if any. -/
def hexVal (c : Char) : Option Nat :=
  if 48 ≤ c.toNat ∧ c.toNat ≤ 57 then some (c.toNat - 48)
  else if 97 ≤ c.toNat ∧ c.toNat ≤ 102 then some (c.toNat - 87)
  else if 65 ≤ c.toNat ∧ c.toNat ≤ 70 then some (c.toNat - 55)
  else none

/-- `hex::decode` on a character list: pairs of hex digits; an odd length
or a non-hex character is an error. -/
def hexPairs : List Char → Option (List Nat)
  | [] => some []
  | [_] => none
  | a :: b :: rest =>
    match hexVal a, hexVal b, hexPairs rest with
    | some x, some y, some r => some ((16 * x + y) :: r)
    | _, _, _ => none

/-- `hex::decode` on a string. -/
def hexDecode (s : String) : Option (List Nat) :=
  hexPairs s.data

/-! ## The age-stanza binding (`tlock_age/src/tle_age.rs`) -/

/-- An age stanza: tag, arguments, binary body. -/
structure Stanza where
  tag : String
  args : List String
  body : List Nat

/-- The subset of `age::DecryptError` values produced by this code. -/
inductive AgeDecryptError where
  | invalidHeader
  | decryptionFailed
  deriving DecidableEq, Repr

/-- The `Identity` struct of `tle_age.rs`: a chain hash and a beacon
signature. -/
structure AgeIdentity where
  hash : List Nat
  signature : List Nat

/-- `Vec::resize(16, 0)` followed by `try_into` into `[u8; 16]`: truncate
to 16 bytes, zero-padding when shorter. -/
def resize16 (l : List Nat) : List Nat :=
  l.take 16 ++ List.replicate (16 - l.length) 0

/-- `Identity::unwrap_stanza(&self, stanza)` — the value is
`None` / `Some(Ok(file_key))` / `Some(Err(e))`, or a panic.
Note the bare `hex::decode(&args[1]).unwrap()`: invalid hex panics. -/
def unwrapStanza (M : Model) (ident : AgeIdentity) (st : Stanza) :
    Outcome Empty (Option (Except AgeDecryptError (List Nat))) :=
  if st.tag ≠ "tlock" then .ok none
  else match st.args with
  | [a0, a1] =>
    match parseU64 a0 with
    | none => .ok (some (.error .invalidHeader))
    | some _round =>
      match hexDecode a1 with
      | none => .panic
      | some h =>
        if ident.hash ≠ h then .ok (some (.error .invalidHeader))
        else
          match tlockDecrypt M st.body ident.signature with
          | .ok pt => .ok (some (.ok (resize16 pt)))
          | .err _ => .ok (some (.error .decryptionFailed))
          | .panic => .panic
  | _ => .ok (some (.error .invalidHeader))

/-- The two one-shot cells of `HeaderIdentity` (round, chain hash). -/
structure HeaderCells where
  round : Option Nat
  hash : Option (List Nat)

/-- `HeaderIdentity::unwrap_stanza(&self, stanza)`: same parsing as
`Identity::unwrap_stanza` (but `hex::decode` errors are handled), then the
round and hash are stored in the cells and `None` is returned. The value is
the updated cells together with the returned option. -/
def headerUnwrapStanza (st : Stanza) (cells : HeaderCells) :
    HeaderCells × Option (Except AgeDecryptError (List Nat)) :=
  if st.tag ≠ "tlock" then (cells, none)
  else match st.args with
  | [a0, a1] =>
    match parseU64 a0 with
    | none => (cells, some (.error .invalidHeader))
    | some round =>
      match hexDecode a1 with
      | none => (cells, some (.error .invalidHeader))
      | some h => (⟨some round, some h⟩, none)
  | _ => (cells, some (.error .invalidHeader))

/-- The `Recipient` struct of `tle_age.rs`. -/
structure AgeRecipient where
  hash : List Nat
  publicKeyBytes : List Nat
  round : Nat

/-- `Recipient::wrap_file_key(&self, file_key)`: tlock-encrypt the file key
into an in-memory buffer and emit the single stanza
`("tlock", [round_decimal, hex(chain_hash)], U||V||W)`. The result of
`tlock::encrypt` is discarded (`let _ = …`); the body is whatever was
written into the buffer (nothing when encryption aborted). -/
def wrapFileKey (M : Model) (rng : Nat → Nat) (r : AgeRecipient)
    (fileKey : List Nat) : Stanza :=
  let body := match tlockEncrypt M rng fileKey r.publicKeyBytes r.round with
              | .ok bytes => bytes
              | _ => []
  ⟨"tlock", [decimalRepr r.round, hexEncode r.hash], body⟩

/-- The age header of a file produced by `tlock_age::encrypt` with a single
tlock recipient: the one stanza `wrap_file_key` emits. The age container
itself (body encryption, base64 framing) is external to the repository and
is modelled by the list of stanzas it presents back during decryption. -/
def ageEncryptHeader (M : Model) (rng : Nat → Nat) (chainHash pkBytes : List Nat)
    (round : Nat) (fileKey : List Nat) : List Stanza :=
  [wrapFileKey M rng ⟨chainHash, pkBytes, round⟩ fileKey]

/-- `tlock_age::decrypt_header(src)`: run a fresh `HeaderIdentity` over the
stanzas of the age header (the age decryptor calls `unwrap_stanza` on each
stanza in order), then read the cells; both must have been captured,
otherwise the call fails (`anyhow!("Cannot decrypt round")`). -/
def decryptHeader (stanzas : List Stanza) : Except Unit (Nat × List Nat) :=
  let cells := stanzas.foldl (fun cs st => (headerUnwrapStanza st cs).1)
    ⟨none, none⟩
  match cells.round, cells.hash with
  | some r, some h => .ok (r, h)
  | _, _ => .error ()

/-! ## General lemmas about the embedded operations -/

theorem toChunksSucc_flatten {α : Type} (n : Nat) (l : List α) :
    (toChunksSucc n l).flatten = l := by
  induction l using toChunksSucc.induct n with
  | case1 => simp [toChunksSucc]
  | case2 x xs ih =>
    rw [toChunksSucc]
    simp only [List.flatten_cons, ih]
    simp [List.take_append_drop]

theorem toChunksSucc_cons_chunk {α : Type} (n : Nat) (c rest : List α)
    (hc : c.length = n + 1) :
    toChunksSucc n (c ++ rest) = c :: toChunksSucc n rest := by
  match c, hc with
  | x :: xs, hc =>
    have hxs : xs.length = n := by simpa using hc
    rw [List.cons_append, toChunksSucc]
    rw [List.take_append_of_le_length (by omega), List.take_of_length_le (by omega)]
    rw [List.drop_append_of_le_length (by omega), List.drop_of_length_le (by omega)]
    simp

theorem sigmaBytes_length (rng : Nat → Nat) : (sigmaBytes rng).length = 16 := by
  simp [sigmaBytes]

theorem xorB_cancel {ε : Type} (h s : List Nat) (hl : h.length = s.length) :
    xorB (ε := ε) h (List.zipWith Nat.xor s h) = .ok s := by
  rw [xorB, if_pos (by simp [hl])]
  congr 1
  induction h generalizing s with
  | nil => cases s with
    | nil => rfl
    | cons y ys => simp at hl
  | cons x xs ih =>
    cases s with
    | nil => simp at hl
    | cons y ys =>
      simp only [List.zipWith_cons_cons, List.cons.injEq]
      refine ⟨?_, ih ys (by simpa using hl)⟩
      show x ^^^ (y ^^^ x) = y
      rw [Nat.xor_comm y x, ← Nat.xor_assoc, Nat.xor_self, Nat.zero_xor]


theorem expandMessageDrand_eq_first {ε : Type} (sha : List Nat → List Nat)
    (msg buf rest : List Nat) (b : Nat)
    (h : sha (leBytes 2 1 ++ msg) = b :: rest)
    (hlen : rest.length + 1 = buf.length) :
    expandMessageDrand (ε := ε) sha msg buf =
      .ok (List.reverse (b / 2 :: rest)) := by
  rw [expandMessageDrand, show (65534 : Nat) = 65533 + 1 from rfl, expandLoop,
    expandCandidate, h]
  simp only [Outcome.bind_ok, frSerializedSize, gt_iff_lt, Nat.zero_lt_succ,
    if_true, List.length_reverse, List.length_cons, hlen, if_pos rfl]

/-! ## Concrete model instances

Small instances of the library model, used to evaluate the embedded code at
explicit inputs: every group is `ZMod 5` with multiplication as the pairing
and as the scalar action, so the pairing is bilinear; points serialize to
their value followed by zero padding of the correct compressed width. -/

/-- A concrete model whose hash outputs are 32 bytes of `1`. -/
@[reducible] def M0 : Model where
  R := ZMod 5
  G1 := ZMod 5
  G2 := ZMod 5
  GT := ZMod 5
  beq1 := fun a b => decide (a = b)
  beq2 := fun a b => decide (a = b)
  gen1 := 1
  gen2 := 1
  smul1 := fun g s => g * s
  smul2 := fun g s => g * s
  smulT := fun g s => g * s
  pair := fun a b => a * b
  mapToG1 := fun _ => 1
  mapToG2 := fun _ => 1
  ser1 := fun g => g.val :: List.replicate 47 0
  ser2 := fun g => g.val :: List.replicate 95 0
  serT := fun g => [g.val]
  deser1 := fun l => match l with | a :: _ => some (a : ZMod 5) | [] => none
  deser2 := fun l => match l with | a :: _ => some (a : ZMod 5) | [] => none
  fromLe := fun l => (leValue l : ZMod 5)
  sha := fun _ => List.replicate 32 1

/-- A concrete model whose hash outputs are 32 zero bytes and whose
scalar parse is constantly zero, so that decryption recovers an all-zero
plaintext. -/
@[reducible] def M0z : Model where
  R := ZMod 5
  G1 := ZMod 5
  G2 := ZMod 5
  GT := ZMod 5
  beq1 := fun a b => decide (a = b)
  beq2 := fun a b => decide (a = b)
  gen1 := 1
  gen2 := 1
  smul1 := fun g s => g * s
  smul2 := fun g s => g * s
  smulT := fun g s => g * s
  pair := fun a b => a * b
  mapToG1 := fun _ => 1
  mapToG2 := fun _ => 1
  ser1 := fun g => g.val :: List.replicate 47 0
  ser2 := fun g => g.val :: List.replicate 95 0
  serT := fun g => [g.val]
  deser1 := fun l => match l with | a :: _ => some (a : ZMod 5) | [] => none
  deser2 := fun l => match l with | a :: _ => some (a : ZMod 5) | [] => none
  fromLe := fun _ => 0
  sha := fun _ => List.replicate 32 0

instance : DecidableEq M0.G1 := inferInstanceAs (DecidableEq (ZMod 5))

instance : DecidableEq M0.G2 := inferInstanceAs (DecidableEq (ZMod 5))

instance : DecidableEq M0z.G1 := inferInstanceAs (DecidableEq (ZMod 5))

instance : DecidableEq M0z.G2 := inferInstanceAs (DecidableEq (ZMod 5))

/-! ## Claim C2: the byte order fed to SHA-256 under "IBE-H2" -/

theorem toChunksSucc_flatten_of_chunks {α : Type} (n : Nat) (L : List (List α))
    (h : ∀ c ∈ L, c.length = n + 1) : toChunksSucc n L.flatten = L := by
  induction L with
  | nil => simp [toChunksSucc]
  | cons c cs ih =>
    rw [List.flatten_cons, toChunksSucc_cons_chunk n c _ (h c (by simp))]
    rw [ih fun d hd => h d (by simp [hd])]

/-- A 48-byte sample chunk: one distinguishing byte, then zero padding. -/
def gtChunk (i : Nat) : List Nat := i :: List.replicate 47 0

/-- A 576-byte sample with the shape of a compressed Gt serialization
(12 chunks of 48 bytes). -/
def gtSample : List Nat := ((List.range 12).map gtChunk).flatten

theorem toChunks48_gtSample : toChunks48 gtSample = (List.range 12).map gtChunk := by
  rw [gtSample, toChunks48]
  apply toChunksSucc_flatten_of_chunks
  intro c hc
  simp only [List.mem_map] at hc
  obtain ⟨i, _, rfl⟩ := hc
  simp [gtChunk]

/-- C2, corrected. The claim states that the byte string hashed after the
`"IBE-H2"` label keeps the bytes of each 48-byte chunk in their original
order; the code reverses the whole Gt serialization byte for byte, which on
a 576-byte input of 12 chunks of 48 bytes differs from reversing the chunk
order alone: at `gtSample`, the two byte strings are different. -/
theorem ibeH2Input_ne_revChunksSpec :
    ibeH2Input gtSample ≠ ibeH2Label ++ revChunksSpec gtSample := by
  rw [revChunksSpec, toChunks48_gtSample, ibeH2Input, gtSample]
  decide

/-- C2, amended: the byte string fed to SHA-256 after the `"IBE-H2"` label
is the **full byte reversal** of the compressed Gt serialization —
equivalently, the serialization is split into 48-byte chunks, the chunk
order is reversed **and** the bytes inside each chunk are reversed as
well. -/
theorem ibeH2Input_eq_rev_chunks_rev (s : List Nat) :
    ibeH2Input s =
      ibeH2Label ++ ((toChunks48 s).map List.reverse).reverse.flatten := by
  rw [ibeH2Input]
  congr 1
  conv_lhs => rw [← toChunksSucc_flatten 47 s]
  rw [List.reverse_flatten, toChunks48]

/-! ## Claim C3: the `expand_message_drand` canonicality check -/

/-- A hash model returning 32 bytes of `0xFF`: its first candidate, after
the 1-bit shift, is the little-endian buffer of value `2^255 - 1`, which is
not a canonical scalar (`≥ frOrder`). -/
def shaFF : List Nat → List Nat := fun _ => List.replicate 32 255

/-- C3 (code bug evidence). The spec's step 4 only returns buffers that
parse as a canonical scalar strictly below the field order, retrying
otherwise; the code's acceptance test
`from_le_bytes_mod_order(rev).serialized_size(Compress::Yes) > 0` is
vacuously true (the compressed size of an `Fr` is always 32), so the loop
accepts its very first candidate even when its value is `≥ frOrder`:
with a hash returning 32 `0xFF` bytes, `expand_message` returns the buffer
of value `2^255 - 1`, which exceeds the field order. -/
theorem expand_message_returns_noncanonical_buffer :
    expandMessageDrand (ε := IBEError) shaFF [] (List.replicate 32 0) =
      .ok (List.replicate 31 255 ++ [127])
    ∧ frOrder ≤ leValue (List.replicate 31 255 ++ [127]) := by
  constructor
  · rw [expandMessageDrand_eq_first shaFF [] (List.replicate 32 0)
      (List.replicate 31 255) 255 rfl rfl]
    decide
  · decide

/-! ## Claim C4: the sigma sampling range -/

/-- C4, confirmed. For every RNG stream, the sigma sampled in step 2 of
`ibe::encrypt` is a 16-byte array whose bytes all lie in `[0, 8)`. -/
theorem sigmaBytes_length_all_lt_eight : ∀ rng : Nat → Nat,
    (sigmaBytes rng).length = 16 ∧
      (sigmaBytes rng).all (fun b => b < 8) = true := by
  intro rng
  refine ⟨sigmaBytes_length rng, ?_⟩
  simp only [sigmaBytes, uniformSample, List.all_eq_true, List.mem_map,
    List.mem_range, decide_eq_true_eq]
  rintro b ⟨k, _, rfl⟩
  omega

/-! ## Claim C5: failure of the decryption consistency check -/

/-- The ciphertext of the consistency-check counterexample: `U = G1(1)`,
while the zero-hash model recomputes `G·r = G1(0)`. -/
def cexCiphertext : Ciphertext M0z :=
  ⟨GAffine.g1 (1 : ZMod 5), List.replicate 32 0, List.replicate 32 0⟩

/-- C5, counterexample. The claim states that a failed consistency check
makes decryption return a `DecryptionFailed` error (and in particular not
panic); at this concrete ciphertext and private key the recomputed `G·r`
differs from `U` and `ibe::decrypt` panics (`assert_eq!`) — indeed the
embedded `IBEError` enumeration has no `DecryptionFailed` variant at
all. -/
theorem ibe_decrypt_check_failure_panics_cex :
    ibeDecrypt M0z (GAffine.g2 (1 : ZMod 5)) cexCiphertext = .panic := by
  decide

/-- C5, amended: whenever the recomputed `G·r` differs from `U` (and the
earlier steps produced values), `ibe::decrypt` panics via `assert_eq!`
instead of returning an error. -/
theorem ibe_decrypt_check_failure_panics (M : Model) (priv : GAffine M)
    (c : Ciphertext M) (sigma msg : List Nat) (rG : GAffine M)
    (hw : ¬c.w.length > 32)
    (hs : ibeDecryptSigma M priv c = .ok sigma)
    (hm : ibeDecryptMsg M c sigma = .ok msg)
    (hr : ibeDecryptRG M c sigma msg = .ok rG)
    (hne : GAffine.beq c.u rG = false) :
    ibeDecrypt M priv c = .panic := by
  rw [ibeDecrypt, if_neg hw, hs, Outcome.bind_ok, hm, Outcome.bind_ok, hr,
    Outcome.bind_ok, hne]
  simp

/-- C5, witness: the amended theorem applied at the concrete
counterexample model. -/
theorem ibe_decrypt_check_failure_panics_witness :
    ibeDecrypt M0z (GAffine.g2 (1 : ZMod 5)) cexCiphertext = .panic :=
  ibe_decrypt_check_failure_panics M0z (GAffine.g2 (1 : ZMod 5))
    cexCiphertext (List.replicate 16 0) (List.replicate 16 0)
    (GAffine.g1 (0 : ZMod 5)) (by decide) (by decide) (by decide) (by decide)
    (by decide)

/-! ## Claim C6: invalid public-key size -/

/-- C6, amended: `tlock::encrypt` with a public key whose length is neither
48 nor 96 **panics** (the `GAffine::try_from(...).unwrap()` inside
`time_lock` unwraps the `PublicKeySize` error) and writes nothing to
`dst`; it does not return the error to the caller. -/
theorem tlock_encrypt_bad_pk_size_panics (M : Model) (rng : Nat → Nat)
    (src pkBytes : List Nat) (round : Nat)
    (h48 : pkBytes.length ≠ 48) (h96 : pkBytes.length ≠ 96) :
    tlockEncrypt M rng src pkBytes round = .panic := by
  simp [tlockEncrypt, timeLock, GAffine.tryFromBytes, h48, h96,
    Outcome.unwrapRes]

/-- C6, counterexample. The claim states that a 47-byte public key makes
`tlock::encrypt` return a `PublicKeySize` error; evaluating the embedded
encryption at a concrete 47-byte key yields a panic, not an error
outcome. -/
theorem tlock_encrypt_47_byte_pk_panics_cex :
    tlockEncrypt M0 (fun _ => 0) (List.replicate 16 0) (List.replicate 47 0)
      1 = .panic := by
  decide

/-- C6, witness: the amended theorem applied at a concrete 47-byte key. -/
theorem tlock_encrypt_bad_pk_size_panics_witness :
    (List.replicate (47 : Nat) 0).length ≠ 48 ∧
    (List.replicate (47 : Nat) 0).length ≠ 96 ∧
    tlockEncrypt M0 (fun _ => 0) (List.replicate 16 0) (List.replicate 47 0)
      1 = .panic :=
  ⟨by decide, by decide,
    tlock_encrypt_bad_pk_size_panics M0 (fun _ => 0) (List.replicate 16 0)
      (List.replicate 47 0) 1 (by decide) (by decide)⟩

/-! ## Claim C10: panic on invalid hex in `Identity::unwrap_stanza` -/

/-- C10, confirmed. A stanza with tag `"tlock"`, exactly two arguments and
a valid decimal round whose second argument is not valid hex makes
`Identity::unwrap_stanza` panic (`hex::decode(&args[1]).unwrap()`) instead
of returning a value. -/
theorem unwrap_stanza_invalid_hex_panics :
    unwrapStanza M0z ⟨[171, 205], 1 :: List.replicate 95 0⟩
      ⟨"tlock", ["1", "zz"], []⟩ = .panic := by
  decide

/-! ## Claim C7: the trailing-zero trimming of `tlock::decrypt` -/

theorem Outcome.bind_eq_ok {ε α β : Type} {x : Outcome ε α}
    {f : α → Outcome ε β} {b : β} (h : Outcome.bind x f = .ok b) :
    ∃ a, x = .ok a ∧ f a = .ok b := by
  cases x with
  | ok a => exact ⟨a, rfl, h⟩
  | err e => simp [Outcome.bind] at h
  | panic => simp [Outcome.bind] at h

theorem rpositionNonzero_concat_nonzero (xs : List Nat) (x : Nat)
    (hx : x ≠ 0) : rpositionNonzero (xs ++ [x]) = some xs.length := by
  have hb : (x != 0) = true := by simpa using hx
  simp [rpositionNonzero, List.findIdx?_cons, hb]

theorem rpositionNonzero_concat_zero (xs : List Nat) :
    rpositionNonzero (xs ++ [0]) = rpositionNonzero xs := by
  rw [rpositionNonzero, rpositionNonzero]
  have h1 : (xs ++ [0]).reverse = 0 :: xs.reverse := by simp
  rw [h1, List.findIdx?_cons]
  rw [if_neg (by simp)]
  cases h : xs.reverse.findIdx? (fun x => x != 0) with
  | none => simp [List.findIdx?_start_succ, h]
  | some j =>
    simp only [List.findIdx?_start_succ, h, Option.map_some',
      Option.some.injEq, List.length_append, List.length_cons,
      List.length_nil]
    omega

theorem rpositionNonzero_none_iff (l : List Nat) :
    rpositionNonzero l = none ↔ ∀ b ∈ l, b = 0 := by
  rw [rpositionNonzero]
  simp [List.findIdx?_eq_none_iff]

theorem rpositionNonzero_some_lt (l : List Nat) (i : Nat)
    (h : rpositionNonzero l = some i) : i < l.length := by
  rw [rpositionNonzero] at h
  cases hf : l.reverse.findIdx? (fun x => x != 0) with
  | none => rw [hf] at h; simp at h
  | some j =>
    rw [hf] at h
    simp only [Option.map_some', Option.some.injEq] at h
    have hne : l.reverse ≠ [] := by
      intro he
      rw [he] at hf
      simp at hf
    have hlen : 1 ≤ l.length := by
      cases l with
      | nil => simp at hne
      | cons a as => simp
    omega

theorem trim_concat_nonzero (xs : List Nat) (x : Nat) (hx : x ≠ 0) :
    trimTrailingZeros (xs ++ [x]) = xs ++ [x] := by
  rw [trimTrailingZeros, rpositionNonzero_concat_nonzero xs x hx]
  dsimp only
  rw [List.take_of_length_le (by simp)]

theorem trim_concat_zero_some (xs : List Nat) (i : Nat)
    (h : rpositionNonzero xs = some i) :
    trimTrailingZeros (xs ++ [0]) = trimTrailingZeros xs := by
  rw [trimTrailingZeros, trimTrailingZeros, rpositionNonzero_concat_zero, h]
  have hi := rpositionNonzero_some_lt xs i h
  dsimp only
  rw [List.take_append_of_le_length (by omega)]

theorem trim_concat_zero_none (xs : List Nat)
    (h : rpositionNonzero xs = none) :
    trimTrailingZeros (xs ++ [0]) = xs ++ [0] := by
  rw [trimTrailingZeros, rpositionNonzero_concat_zero, h]

theorem trim_pad (l : List Nat) :
    ∃ k, l = trimTrailingZeros l ++ List.replicate k 0 := by
  induction l using List.reverseRecOn with
  | nil => exact ⟨0, by simp [trimTrailingZeros, rpositionNonzero]⟩
  | append_singleton xs x ih =>
    by_cases hx : x = 0
    · subst hx
      cases h : rpositionNonzero xs with
      | none => exact ⟨0, by rw [trim_concat_zero_none xs h]; simp⟩
      | some i =>
        obtain ⟨k, hk⟩ := ih
        refine ⟨k + 1, ?_⟩
        rw [trim_concat_zero_some xs i h, List.replicate_succ',
          ← List.append_assoc, ← hk]
    · exact ⟨0, by rw [trim_concat_nonzero xs x hx]; simp⟩

theorem trim_all_zero (l : List Nat) (h : ∀ b ∈ l, b = 0) :
    trimTrailingZeros l = l := by
  rw [trimTrailingZeros, (rpositionNonzero_none_iff l).mpr h]

theorem trim_getLast_nonzero (l : List Nat) (h : ∃ b ∈ l, b ≠ 0) :
    (trimTrailingZeros l).getLast? ≠ some 0 := by
  induction l using List.reverseRecOn with
  | nil =>
    obtain ⟨b, hb, _⟩ := h
    simp at hb
  | append_singleton xs x ih =>
    by_cases hx : x = 0
    · subst hx
      have hxs : ∃ b ∈ xs, b ≠ 0 := by
        obtain ⟨b, hb, hbne⟩ := h
        rcases List.mem_append.mp hb with h1 | h2
        · exact ⟨b, h1, hbne⟩
        · simp only [List.mem_singleton] at h2
          exact absurd h2 hbne
      cases hpos : rpositionNonzero xs with
      | none =>
        obtain ⟨b, hb, hbne⟩ := hxs
        exact absurd ((rpositionNonzero_none_iff xs).mp hpos b hb) hbne
      | some i =>
        rw [trim_concat_zero_some xs i hpos]
        exact ih hxs
    · rw [trim_concat_nonzero xs x hx, List.getLast?_concat]
      simp [hx]

theorem trim_ne_nil (l : List Nat) (h : ∃ b ∈ l, b ≠ 0) :
    trimTrailingZeros l ≠ [] := by
  intro he
  obtain ⟨k, hk⟩ := trim_pad l
  rw [he, List.nil_append] at hk
  obtain ⟨b, hb, hbne⟩ := h
  rw [hk] at hb
  exact hbne (List.eq_of_mem_replicate hb)

theorem tlockDecrypt_ok_trim (M : Model) (src signature out : List Nat)
    (h : tlockDecrypt M src signature = .ok out) :
    ∃ pt, out = trimTrailingZeros pt := by
  rw [tlockDecrypt] at h
  obtain ⟨c, _, h⟩ := Outcome.bind_eq_ok h
  obtain ⟨pt, _, h⟩ := Outcome.bind_eq_ok h
  simp only [Outcome.ok.injEq] at h
  exact ⟨pt, h.symm⟩

/-- C7, amended: when `tlock::decrypt` succeeds, the bytes written to `dst`
are the recovered plaintext with **only** trailing zero bytes removed
(the plaintext is the output extended by zeros); when the plaintext
contains a nonzero byte, the output is nonempty and its last byte is
nonzero; but an **all-zero plaintext is written unchanged** — no bytes are
removed from it. -/
theorem tlock_decrypt_trims_only_trailing_zeros (M : Model)
    (src signature out : List Nat)
    (h : tlockDecrypt M src signature = .ok out) :
    ∃ pt, out = trimTrailingZeros pt
      ∧ (∃ k, pt = out ++ List.replicate k 0)
      ∧ ((∃ b ∈ pt, b ≠ 0) → out ≠ [] ∧ out.getLast? ≠ some 0)
      ∧ ((∀ b ∈ pt, b = 0) → out = pt) := by
  obtain ⟨pt, hpt⟩ := tlockDecrypt_ok_trim M src signature out h
  subst hpt
  exact ⟨pt, rfl, trim_pad pt,
    fun hb => ⟨trim_ne_nil pt hb, trim_getLast_nonzero pt hb⟩,
    fun hz => trim_all_zero pt hz⟩

/-- C7, counterexample. The claim states that every successful
`tlock::decrypt` writes a byte string whose last byte is nonzero, removing
all trailing zeros; decrypting this concrete ciphertext (an all-zero
recovered plaintext) writes 16 zero bytes, whose last byte is zero. -/
theorem tlock_decrypt_allzero_not_trimmed_cex :
    tlockDecrypt M0z (List.replicate 80 0) (1 :: List.replicate 95 0) =
      .ok (List.replicate 16 0)
    ∧ (List.replicate 16 (0 : Nat)).getLast? = some 0 :=
  ⟨by decide, by decide⟩

/-- C7, witness: the amended theorem applied at the concrete all-zero
decryption. -/
theorem tlock_decrypt_trims_only_trailing_zeros_witness :
    ∃ pt, List.replicate 16 (0 : Nat) = trimTrailingZeros pt
      ∧ (∃ k, pt = List.replicate 16 0 ++ List.replicate k 0)
      ∧ ((∃ b ∈ pt, b ≠ 0) →
          List.replicate 16 (0 : Nat) ≠ [] ∧
          (List.replicate 16 (0 : Nat)).getLast? ≠ some 0)
      ∧ ((∀ b ∈ pt, b = 0) → List.replicate 16 (0 : Nat) = pt) :=
  tlock_decrypt_trims_only_trailing_zeros M0z (List.replicate 80 0)
    (1 :: List.replicate 95 0) (List.replicate 16 0) (by decide)

/-! ## Claim C8: the case analysis of `Identity::unwrap_stanza` -/

/-- C8, confirmed. `Identity::unwrap_stanza` returns `None` for a foreign
tag; `Some(Err(InvalidHeader))` when the argument count is not 2, when the
round does not parse as a `u64`, or when the hex-decoded second argument
differs from the identity's chain hash; and on a successful tlock
decryption of the body it returns the plaintext resized to its first 16
bytes (zero-padded when shorter) as the file key. -/
theorem unwrap_stanza_cases (M : Model) (ident : AgeIdentity) (st : Stanza) :
    (st.tag ≠ "tlock" → unwrapStanza M ident st = .ok none)
    ∧ (st.tag = "tlock" → st.args.length ≠ 2 →
        unwrapStanza M ident st = .ok (some (.error .invalidHeader)))
    ∧ (∀ a0 a1, st.tag = "tlock" → st.args = [a0, a1] → parseU64 a0 = none →
        unwrapStanza M ident st = .ok (some (.error .invalidHeader)))
    ∧ (∀ a0 a1 r h, st.tag = "tlock" → st.args = [a0, a1] →
        parseU64 a0 = some r → hexDecode a1 = some h → ident.hash ≠ h →
        unwrapStanza M ident st = .ok (some (.error .invalidHeader)))
    ∧ (∀ a0 a1 r pt, st.tag = "tlock" → st.args = [a0, a1] →
        parseU64 a0 = some r → hexDecode a1 = some ident.hash →
        tlockDecrypt M st.body ident.signature = .ok pt →
        unwrapStanza M ident st = .ok (some (.ok (resize16 pt)))) := by
  obtain ⟨tag, args, body⟩ := st
  refine ⟨?_, ?_, ?_, ?_, ?_⟩
  · intro h
    rw [unwrapStanza, if_pos (by simpa using h)]
  · intro ht hlen
    dsimp only at ht hlen
    subst ht
    rcases args with _ | ⟨a0, _ | ⟨a1, _ | ⟨c, rest⟩⟩⟩
    · simp [unwrapStanza]
    · simp [unwrapStanza]
    · simp at hlen
    · simp [unwrapStanza]
  · intro a0 a1 ht hargs hparse
    dsimp only at ht hargs
    subst ht
    subst hargs
    simp [unwrapStanza, hparse]
  · intro a0 a1 r h ht hargs hparse hhex hne
    dsimp only at ht hargs
    subst ht
    subst hargs
    simp [unwrapStanza, hparse, hhex, hne]
  · intro a0 a1 r pt ht hargs hparse hhex hdec
    dsimp only at ht hargs hdec
    subst ht
    subst hargs
    simp [unwrapStanza, hparse, hhex, hdec]

/-- C8, witness: each branch of the case analysis evaluated at a concrete
identity and stanza. -/
theorem unwrap_stanza_cases_witness :
    unwrapStanza M0z ⟨[171, 205], 1 :: List.replicate 95 0⟩
        ⟨"x", [], []⟩ = .ok none
    ∧ unwrapStanza M0z ⟨[171, 205], 1 :: List.replicate 95 0⟩
        ⟨"tlock", ["5"], []⟩ = .ok (some (.error .invalidHeader))
    ∧ unwrapStanza M0z ⟨[171, 205], 1 :: List.replicate 95 0⟩
        ⟨"tlock", ["x", "ab"], []⟩ = .ok (some (.error .invalidHeader))
    ∧ unwrapStanza M0z ⟨[171, 205], 1 :: List.replicate 95 0⟩
        ⟨"tlock", ["5", "ff"], []⟩ = .ok (some (.error .invalidHeader))
    ∧ unwrapStanza M0z ⟨[171, 205], 1 :: List.replicate 95 0⟩
        ⟨"tlock", ["5", "abcd"], List.replicate 80 0⟩ =
        .ok (some (.ok (resize16 (List.replicate 16 0)))) :=
  ⟨(unwrap_stanza_cases M0z _ _).1 (by decide),
   (unwrap_stanza_cases M0z _ _).2.1 rfl (by decide),
   (unwrap_stanza_cases M0z _ _).2.2.1 "x" "ab" rfl rfl (by decide),
   (unwrap_stanza_cases M0z _ _).2.2.2.1 "5" "ff" 5 [255] rfl rfl
     (by decide) (by decide) (by decide),
   (unwrap_stanza_cases M0z _ _).2.2.2.2 "5" "abcd" 5 (List.replicate 16 0)
     rfl rfl (by decide) (by decide) (by decide)⟩

/-! ## Claim C9: `HeaderIdentity` and `decrypt_header` -/

theorem natDigits_nonempty (n : Nat) : natDigits n ≠ [] := by
  rw [natDigits]
  split
  · simp
  · simp

theorem natDigits_lt10 (n : Nat) : ∀ d ∈ natDigits n, d < 10 := by
  induction n using natDigits.induct with
  | case1 n h =>
    intro d hd
    rw [natDigits, dif_pos h] at hd
    simp only [List.mem_singleton] at hd
    omega
  | case2 n h ih =>
    intro d hd
    rw [natDigits, dif_neg h] at hd
    rcases List.mem_append.mp hd with h1 | h2
    · exact ih d h1
    · simp only [List.mem_singleton] at h2
      omega

/-- The value of a digit sequence, most significant first. -/
def valDigits (ds : List Nat) : Nat := ds.foldl (fun a d => 10 * a + d) 0

theorem valDigits_natDigits (n : Nat) : valDigits (natDigits n) = n := by
  induction n using natDigits.induct with
  | case1 n h =>
    rw [natDigits, dif_pos h]
    simp [valDigits]
  | case2 n h ih =>
    rw [natDigits, dif_neg h, valDigits, List.foldl_append]
    show 10 * valDigits (natDigits (n / 10)) + n % 10 = n
    rw [ih]
    omega

theorem digitChar_facts : ∀ d, d < 10 →
    isDigitChar (digitChar d) = true ∧ (digitChar d).toNat - 48 = d ∧
      ¬digitChar d = '+' := by decide

theorem digitsVal_map_digitChar (ds : List Nat) (h : ∀ d ∈ ds, d < 10) :
    digitsVal (ds.map digitChar) = valDigits ds := by
  rw [digitsVal, valDigits]
  suffices haux : ∀ init : Nat,
      (ds.map digitChar).foldl (fun a c => 10 * a + (c.toNat - 48)) init =
        ds.foldl (fun a d => 10 * a + d) init from haux 0
  induction ds with
  | nil => intro init; rfl
  | cons d rest ih =>
    intro init
    simp only [List.map_cons, List.foldl_cons]
    rw [(digitChar_facts d (h d (by simp))).2.1]
    exact ih (fun x hx => h x (by simp [hx])) _


theorem parseU64_decimalRepr (n : Nat) (h : n < 2 ^ 64) :
    parseU64 (decimalRepr n) = some n := by
  rw [decimalRepr, parseU64]
  cases hnd : natDigits n with
  | nil => exact absurd hnd (natDigits_nonempty n)
  | cons d ds =>
    have hd10 : d < 10 := natDigits_lt10 n d (by rw [hnd]; simp)
    have hmem : ∀ x ∈ d :: ds, x < 10 := by
      rw [← hnd]; exact natDigits_lt10 n
    have hall : ((d :: ds).map digitChar).all isDigitChar = true := by
      rw [List.all_eq_true]
      intro c hc
      rw [List.mem_map] at hc
      obtain ⟨x, hx, rfl⟩ := hc
      exact (digitChar_facts x (hmem x hx)).1
    have hval : digitsVal ((d :: ds).map digitChar) = n := by
      rw [digitsVal_map_digitChar (d :: ds) hmem, ← hnd, valDigits_natDigits]
    simp only [List.map_cons]
    rw [if_neg (digitChar_facts d hd10).2.2]
    rw [if_neg (by simp)]
    have hall' : (digitChar d :: ds.map digitChar).all isDigitChar = true := by
      rw [← List.map_cons]; exact hall
    rw [if_pos hall']
    have hval' : digitsVal (digitChar d :: ds.map digitChar) = n := by
      rw [← List.map_cons]; exact hval
    rw [hval', if_pos h]

theorem hexVal_hexChar : ∀ d, d < 16 → hexVal (hexChar d) = some d := by
  decide

theorem hexPairs_encode (l : List Nat) (h : ∀ b ∈ l, b < 256) :
    hexPairs ((l.map fun b => [hexChar (b / 16), hexChar (b % 16)]).flatten) =
      some l := by
  induction l with
  | nil => rfl
  | cons b rest ih =>
    have hb := h b (by simp)
    simp only [List.map_cons, List.flatten_cons, List.cons_append,
      List.nil_append]
    rw [hexPairs]
    rw [hexVal_hexChar (b / 16) (by omega), hexVal_hexChar (b % 16) (by omega)]
    rw [ih fun x hx => h x (by simp [hx])]
    show some ((16 * (b / 16) + b % 16) :: rest) = some (b :: rest)
    have hbv : 16 * (b / 16) + b % 16 = b := by omega
    rw [hbv]

theorem hexDecode_hexEncode (l : List Nat) (h : ∀ b ∈ l, b < 256) :
    hexDecode (hexEncode l) = some l := by
  rw [hexDecode, hexEncode]
  exact hexPairs_encode l h

/-- C9, confirmed. `HeaderIdentity::unwrap_stanza` never produces a file
key; on a well-formed tlock stanza it stores the parsed round and the
hex-decoded chain hash into its cells and returns `None`; and
`decrypt_header` applied to the header produced by `tlock_age::encrypt`
recovers exactly the round and chain hash used at encryption. -/
theorem header_identity_captures_round_and_hash :
    (∀ (st : Stanza) (cells : HeaderCells) (fk : List Nat),
      (headerUnwrapStanza st cells).2 ≠ some (.ok fk))
    ∧ (∀ (st : Stanza) (cells : HeaderCells) (a0 a1 : String) (r : Nat)
        (h : List Nat), st.tag = "tlock" → st.args = [a0, a1] →
        parseU64 a0 = some r → hexDecode a1 = some h →
        headerUnwrapStanza st cells = (⟨some r, some h⟩, none))
    ∧ (∀ (M : Model) (rng : Nat → Nat) (chainHash pkBytes : List Nat)
        (round : Nat) (fileKey : List Nat), round < 2 ^ 64 →
        (∀ b ∈ chainHash, b < 256) →
        decryptHeader (ageEncryptHeader M rng chainHash pkBytes round fileKey)
          = .ok (round, chainHash)) := by
  refine ⟨?_, ?_, ?_⟩
  · intro st cells fk
    rw [headerUnwrapStanza]
    repeat' split
    all_goals simp
  · intro st cells a0 a1 r h ht hargs hparse hhex
    obtain ⟨tag, args, body⟩ := st
    dsimp only at ht hargs
    subst ht
    subst hargs
    simp [headerUnwrapStanza, hparse, hhex]
  · intro M rng chainHash pkBytes round fileKey hr hh
    rw [ageEncryptHeader, wrapFileKey, decryptHeader]
    simp only [List.foldl_cons, List.foldl_nil]
    rw [headerUnwrapStanza]
    rw [if_neg (by simp)]
    simp only [parseU64_decimalRepr round hr, hexDecode_hexEncode chainHash hh]

/-- C9, witness: the three parts evaluated at concrete stanzas and at a
concrete encryption. -/
theorem header_identity_captures_round_and_hash_witness :
    (headerUnwrapStanza ⟨"x", [], []⟩ ⟨none, none⟩).2 ≠
      some (.ok (List.replicate 16 0))
    ∧ headerUnwrapStanza ⟨"tlock", ["5", "abcd"], []⟩ ⟨none, none⟩ =
      (⟨some 5, some [171, 205]⟩, none)
    ∧ decryptHeader
        (ageEncryptHeader M0z (fun _ => 0) [171, 205] (List.replicate 48 0)
          1000 (List.replicate 16 0)) = .ok (1000, [171, 205]) :=
  ⟨(header_identity_captures_round_and_hash).1 ⟨"x", [], []⟩ ⟨none, none⟩
      (List.replicate 16 0),
   (header_identity_captures_round_and_hash).2.1 ⟨"tlock", ["5", "abcd"], []⟩
      ⟨none, none⟩ "5" "abcd" 5 [171, 205] rfl rfl (by decide) (by decide),
   (header_identity_captures_round_and_hash).2.2 M0z (fun _ => 0) [171, 205]
      (List.replicate 48 0) 1000 (List.replicate 16 0) (by decide)
      (by decide)⟩

/-! ## Claim C1: the tlock round-trip

Proof-side abbreviations for the values `ibe::encrypt` computes. -/

/-- The 1-bit right shift of the first byte performed by
`expand_message_drand`. -/
def shiftFirst (l : List Nat) : List Nat :=
  match l with
  | [] => []
  | b :: r => b / 2 :: r

/-- The buffer `expand_message_drand` returns on its first iteration. -/
def expandOut (sha : List Nat → List Nat) (x : List Nat) : List Nat :=
  (shiftFirst (sha (leBytes 2 1 ++ x))).reverse

/-- The scalar `r` derived in step 3 of `ibe::encrypt` (and recomputed in
step 3 of `ibe::decrypt`). -/
def encR (M : Model) (sigma m : List Nat) : M.R :=
  M.fromLe (expandOut M.sha (M.sha (ibeH3Label ++ sigma ++ m)))

/-- The 16-byte XOR mask derived from a pairing value under `"IBE-H2"`. -/
def encMask2 (M : Model) (gidr : M.GT) : List Nat :=
  (M.sha (ibeH2Input (M.serT gidr))).take 16

/-- The 16-byte XOR mask derived from sigma under `"IBE-H4"`. -/
def encMask4 (M : Model) (sigma : List Nat) : List Nat :=
  (M.sha (ibeH4Label ++ sigma)).take 16

theorem expandMessageDrand_ok {ε : Type} (sha : List Nat → List Nat)
    (x : List Nat) (hsha32 : (sha (leBytes 2 1 ++ x)).length = 32) :
    expandMessageDrand (ε := ε) sha x (List.replicate 32 0) =
      .ok (expandOut sha x) := by
  cases hcand : sha (leBytes 2 1 ++ x) with
  | nil => rw [hcand] at hsha32; simp at hsha32
  | cons b rest =>
    rw [expandMessageDrand_eq_first sha x _ rest b hcand
      (by rw [hcand] at hsha32; simpa using hsha32)]
    rw [expandOut, hcand, shiftFirst]

theorem ibeEncrypt_eq (M : Model) (master : GAffine M) (id m : List Nat)
    (rng : Nat → Nat) (hm : m.length = 16)
    (hsha : ∀ x, (M.sha x).length = 32) :
    ibeEncrypt M master id m rng =
      .ok ⟨master.generator.mul (encR M (sigmaBytes rng) m),
        List.zipWith Nat.xor (sigmaBytes rng)
          (encMask2 M (M.smulT (master.projectivePairing id)
            (encR M (sigmaBytes rng) m))),
        List.zipWith Nat.xor m (encMask4 M (sigmaBytes rng))⟩ := by
  rw [ibeEncrypt, if_neg (by omega), if_pos (sigmaBytes_length rng)]
  rw [expandMessageDrand_ok M.sha _ (hsha _)]
  simp only [Outcome.bind_ok]
  rw [take16, if_neg (by rw [hsha]; omega)]
  simp only [Outcome.bind_ok]
  rw [xorB, if_pos (by rw [sigmaBytes_length, List.length_take, hsha]; omega)]
  simp only [Outcome.bind_ok]
  rw [take16, if_neg (by rw [hsha]; omega)]
  simp only [Outcome.bind_ok]
  rw [xorB, if_pos (by rw [hm, List.length_take, hsha]; omega)]
  simp only [Outcome.bind_ok]
  rfl

theorem tlockDecryptParse_g1 (M : Model) (A V W SIG : List Nat) (uEl : M.G1)
    (hA : A.length = 48) (hdA : M.deser1 A = some uEl)
    (hV : V.length = 16) (hW : W.length = 16) (hSIG : SIG.length = 96) :
    tlockDecryptParse M (A ++ V ++ W) SIG =
      .ok ⟨GAffine.g1 uEl, List.replicate 16 0 ++ V,
        List.replicate 16 0 ++ W⟩ := by
  have htake : (A ++ V ++ W).take 48 = A := by
    rw [List.append_assoc, List.take_left' hA]
  have hdrop : (A ++ V ++ W).drop 48 = V ++ W := by
    rw [List.append_assoc, List.drop_left' hA]
  rw [tlockDecryptParse]
  simp only [hSIG]
  rw [if_neg (show ¬(96 = 48) by omega)]
  rw [if_neg (show ¬((A ++ V ++ W).length < 48) by simp [hA, hV, hW])]
  rw [htake, hdrop]
  rw [if_neg (show ¬((V ++ W).length < 16) by simp [hV, hW])]
  rw [List.take_left' hV, List.drop_left' hV]
  rw [if_neg (show ¬(W.length < 16) by simp [hW])]
  rw [GAffine.tryFromBytes, if_pos hA, hdA]
  rw [show List.take 16 W = W from List.take_of_length_le (by omega)]

theorem tlockDecryptParse_g2 (M : Model) (A V W SIG : List Nat) (uEl : M.G2)
    (hA : A.length = 96) (hdA : M.deser2 A = some uEl)
    (hV : V.length = 16) (hW : W.length = 16) (hSIG : SIG.length = 48) :
    tlockDecryptParse M (A ++ V ++ W) SIG =
      .ok ⟨GAffine.g2 uEl, List.replicate 16 0 ++ V,
        List.replicate 16 0 ++ W⟩ := by
  have htake : (A ++ V ++ W).take 96 = A := by
    rw [List.append_assoc, List.take_left' hA]
  have hdrop : (A ++ V ++ W).drop 96 = V ++ W := by
    rw [List.append_assoc, List.drop_left' hA]
  rw [tlockDecryptParse]
  simp only [hSIG, if_true]
  rw [if_neg (show ¬((A ++ V ++ W).length < 96) by simp [hA, hV, hW])]
  rw [htake, hdrop]
  rw [if_neg (show ¬((V ++ W).length < 16) by simp [hV, hW])]
  rw [List.take_left' hV, List.drop_left' hV]
  rw [if_neg (show ¬(W.length < 16) by simp [hW])]
  rw [GAffine.tryFromBytes, if_neg (show ¬(A.length = 48) by omega),
    if_pos hA, hdA]
  rw [show List.take 16 W = W from List.take_of_length_le (by omega)]

theorem ibeDecrypt_case1 (M : Model) (sg : M.G2) (sigma m : List Nat)
    (gid : M.GT) (hsha : ∀ x, (M.sha x).length = 32)
    (hsig : sigma.length = 16) (hm : m.length = 16)
    (hbeq1 : ∀ g : M.G1, M.beq1 g g = true)
    (hpair : M.pair (M.smul1 M.gen1 (encR M sigma m)) sg =
      M.smulT gid (encR M sigma m)) :
    ibeDecrypt M (GAffine.g2 sg)
      ⟨GAffine.g1 (M.smul1 M.gen1 (encR M sigma m)),
        List.replicate 16 0 ++
          List.zipWith Nat.xor sigma (encMask2 M (M.smulT gid (encR M sigma m))),
        List.replicate 16 0 ++
          List.zipWith Nat.xor m (encMask4 M sigma)⟩ = .ok m := by
  have hmask2len : (encMask2 M (M.smulT gid (encR M sigma m))).length = 16 := by
    rw [encMask2, List.length_take, hsha]
    omega
  have hmask4len : (encMask4 M sigma).length = 16 := by
    rw [encMask4, List.length_take, hsha]
    omega
  have hv : (List.zipWith Nat.xor sigma
      (encMask2 M (M.smulT gid (encR M sigma m)))).length = 16 := by
    rw [List.length_zipWith, hsig, hmask2len]
    exact Nat.min_self 16
  have hw : (List.zipWith Nat.xor m (encMask4 M sigma)).length = 16 := by
    rw [List.length_zipWith, hm, hmask4len]
    exact Nat.min_self 16
  have hdropv : (List.replicate 16 0 ++ List.zipWith Nat.xor sigma
        (encMask2 M (M.smulT gid (encR M sigma m)))).drop
      ((List.replicate 16 0 ++ List.zipWith Nat.xor sigma
        (encMask2 M (M.smulT gid (encR M sigma m)))).length - 16) =
      List.zipWith Nat.xor sigma
        (encMask2 M (M.smulT gid (encR M sigma m))) := by
    rw [List.length_append, List.length_replicate, hv]
    norm_num
  have hdropw : (List.replicate 16 0 ++ List.zipWith Nat.xor m
        (encMask4 M sigma)).drop
      ((List.replicate 16 0 ++ List.zipWith Nat.xor m
        (encMask4 M sigma)).length - 16) =
      List.zipWith Nat.xor m (encMask4 M sigma) := by
    rw [List.length_append, List.length_replicate, hw]
    norm_num
  simp only [encMask2, encMask4, encR] at hmask2len hmask4len hv hw hdropv hdropw hpair ⊢
  rw [ibeDecrypt]
  rw [if_neg (by simp [hw])]
  rw [ibeDecryptSigma]
  simp only [GAffine.pairing, Outcome.bind_ok]
  rw [hpair]
  rw [take16, if_neg (show ¬((M.sha (ibeH2Input (M.serT (M.smulT gid
    (M.fromLe (expandOut M.sha (M.sha (ibeH3Label ++ sigma ++ m)))))))).length
      < 16) by rw [hsha]; omega)]
  simp only [Outcome.bind_ok]
  rw [last16, if_neg (by simp [hv])]
  rw [hdropv]
  simp only [Outcome.bind_ok]
  rw [xorB_cancel _ sigma (by rw [List.length_take, hsha, hsig]; omega)]
  simp only [Outcome.bind_ok]
  rw [ibeDecryptMsg]
  rw [take16, if_neg (show ¬((M.sha (ibeH4Label ++ sigma)).length < 16) by
    rw [hsha]; omega)]
  simp only [Outcome.bind_ok]
  rw [last16, if_neg (by simp [hw])]
  rw [hdropw]
  simp only [Outcome.bind_ok]
  rw [xorB_cancel _ m (by rw [List.length_take, hsha, hm]; omega)]
  simp only [Outcome.bind_ok]
  rw [ibeDecryptRG]
  rw [expandMessageDrand_ok M.sha _ (hsha _)]
  simp only [Outcome.bind_ok]
  simp only [GAffine.generator, GAffine.mul, GAffine.beq]
  simp [hbeq1]

theorem ibeDecrypt_case2 (M : Model) (sg : M.G1) (sigma m : List Nat)
    (gid : M.GT) (hsha : ∀ x, (M.sha x).length = 32)
    (hsig : sigma.length = 16) (hm : m.length = 16)
    (hbeq2 : ∀ g : M.G2, M.beq2 g g = true)
    (hpair : M.pair sg (M.smul2 M.gen2 (encR M sigma m)) =
      M.smulT gid (encR M sigma m)) :
    ibeDecrypt M (GAffine.g1 sg)
      ⟨GAffine.g2 (M.smul2 M.gen2 (encR M sigma m)),
        List.replicate 16 0 ++
          List.zipWith Nat.xor sigma (encMask2 M (M.smulT gid (encR M sigma m))),
        List.replicate 16 0 ++
          List.zipWith Nat.xor m (encMask4 M sigma)⟩ = .ok m := by
  have hmask2len : (encMask2 M (M.smulT gid (encR M sigma m))).length = 16 := by
    rw [encMask2, List.length_take, hsha]
    omega
  have hmask4len : (encMask4 M sigma).length = 16 := by
    rw [encMask4, List.length_take, hsha]
    omega
  have hv : (List.zipWith Nat.xor sigma
      (encMask2 M (M.smulT gid (encR M sigma m)))).length = 16 := by
    rw [List.length_zipWith, hsig, hmask2len]
    exact Nat.min_self 16
  have hw : (List.zipWith Nat.xor m (encMask4 M sigma)).length = 16 := by
    rw [List.length_zipWith, hm, hmask4len]
    exact Nat.min_self 16
  have hdropv : (List.replicate 16 0 ++ List.zipWith Nat.xor sigma
        (encMask2 M (M.smulT gid (encR M sigma m)))).drop
      ((List.replicate 16 0 ++ List.zipWith Nat.xor sigma
        (encMask2 M (M.smulT gid (encR M sigma m)))).length - 16) =
      List.zipWith Nat.xor sigma
        (encMask2 M (M.smulT gid (encR M sigma m))) := by
    rw [List.length_append, List.length_replicate, hv]
    norm_num
  have hdropw : (List.replicate 16 0 ++ List.zipWith Nat.xor m
        (encMask4 M sigma)).drop
      ((List.replicate 16 0 ++ List.zipWith Nat.xor m
        (encMask4 M sigma)).length - 16) =
      List.zipWith Nat.xor m (encMask4 M sigma) := by
    rw [List.length_append, List.length_replicate, hw]
    norm_num
  simp only [encMask2, encMask4, encR] at hmask2len hmask4len hv hw hdropv hdropw hpair ⊢
  rw [ibeDecrypt]
  rw [if_neg (by simp [hw])]
  rw [ibeDecryptSigma]
  simp only [GAffine.pairing, Outcome.bind_ok]
  rw [hpair]
  rw [take16, if_neg (show ¬((M.sha (ibeH2Input (M.serT (M.smulT gid
    (M.fromLe (expandOut M.sha (M.sha (ibeH3Label ++ sigma ++ m)))))))).length
      < 16) by rw [hsha]; omega)]
  simp only [Outcome.bind_ok]
  rw [last16, if_neg (by simp [hv])]
  rw [hdropv]
  simp only [Outcome.bind_ok]
  rw [xorB_cancel _ sigma (by rw [List.length_take, hsha, hsig]; omega)]
  simp only [Outcome.bind_ok]
  rw [ibeDecryptMsg]
  rw [take16, if_neg (show ¬((M.sha (ibeH4Label ++ sigma)).length < 16) by
    rw [hsha]; omega)]
  simp only [Outcome.bind_ok]
  rw [last16, if_neg (by simp [hw])]
  rw [hdropw]
  simp only [Outcome.bind_ok]
  rw [xorB_cancel _ m (by rw [List.length_take, hsha, hm]; omega)]
  simp only [Outcome.bind_ok]
  rw [ibeDecryptRG]
  rw [expandMessageDrand_ok M.sha _ (hsha _)]
  simp only [Outcome.bind_ok]
  simp only [GAffine.generator, GAffine.mul, GAffine.beq]
  simp [hbeq2]

theorem tlock_roundtrip_g1 (M : Model) (rng : Nat → Nat) (s : M.R)
    (m : List Nat) (round : Nat) (hm : m.length = 16)
    (hsha : ∀ x, (M.sha x).length = 32)
    (hser1 : ∀ g, (M.ser1 g).length = 48)
    (hser2 : ∀ g, (M.ser2 g).length = 96)
    (hdeser1 : ∀ g, M.deser1 (M.ser1 g) = some g)
    (hdeser2 : ∀ g, M.deser2 (M.ser2 g) = some g)
    (hbeq1 : ∀ g : M.G1, M.beq1 g g = true)
    (hbl1 : ∀ (g : M.G1) (h : M.G2) (r : M.R),
      M.pair (M.smul1 g r) h = M.smulT (M.pair g h) r)
    (hbl2 : ∀ (g : M.G1) (h : M.G2) (r : M.R),
      M.pair g (M.smul2 h r) = M.smulT (M.pair g h) r) :
    ∃ ct, tlockEncrypt M rng m (M.ser1 (M.smul1 M.gen1 s)) round = .ok ct ∧
      tlockDecrypt M ct (M.ser2 (M.smul2
        (M.mapToG2 ((M.sha (beBytes 8 round)).take 32)) s)) =
        .ok (trimTrailingZeros m) := by
  have hmsg : m.take 16 ++ List.replicate (16 - m.length) 0 = m := by
    rw [hm, List.take_of_length_le (by omega)]
    simp
  have hmask2len : ∀ t : M.GT, (encMask2 M t).length = 16 := fun t => by
    rw [encMask2, List.length_take, hsha]
    omega
  have hmask4len : (encMask4 M (sigmaBytes rng)).length = 16 := by
    rw [encMask4, List.length_take, hsha]
    omega
  have hv : ∀ t : M.GT, (List.zipWith Nat.xor (sigmaBytes rng)
      (encMask2 M t)).length = 16 := fun t => by
    rw [List.length_zipWith, sigmaBytes_length, hmask2len]
    exact Nat.min_self 16
  have hw : (List.zipWith Nat.xor m (encMask4 M (sigmaBytes rng))).length
      = 16 := by
    rw [List.length_zipWith, hm, hmask4len]
    exact Nat.min_self 16
  have henc : tlockEncrypt M rng m (M.ser1 (M.smul1 M.gen1 s)) round =
      .ok (M.ser1 (M.smul1 M.gen1 (encR M (sigmaBytes rng) m)) ++
        List.zipWith Nat.xor (sigmaBytes rng)
          (encMask2 M (M.smulT (M.pair (M.smul1 M.gen1 s)
            (M.mapToG2 ((M.sha (beBytes 8 round)).take 32)))
            (encR M (sigmaBytes rng) m))) ++
        List.zipWith Nat.xor m (encMask4 M (sigmaBytes rng))) := by
    rw [tlockEncrypt, hmsg, timeLock]
    rw [GAffine.tryFromBytes, if_pos (hser1 _), hdeser1]
    dsimp only
    simp only [Outcome.unwrapRes, Outcome.bind_ok]
    rw [if_neg (show ¬((M.sha (beBytes 8 round)).length < 32) by
      rw [hsha]; omega)]
    rw [ibeEncrypt_eq M _ _ _ _ hm hsha]
    rfl
  refine ⟨_, henc, ?_⟩
  rw [tlockDecrypt]
  rw [tlockDecryptParse_g1 M _ _ _ _
    (M.smul1 M.gen1 (encR M (sigmaBytes rng) m)) (hser1 _) (hdeser1 _)
    (hv _) hw (hser2 _)]
  simp only [Outcome.bind_ok]
  rw [timeUnlock]
  rw [GAffine.tryFromBytes,
    if_neg (show ¬((M.ser2 (M.smul2 (M.mapToG2
      ((M.sha (beBytes 8 round)).take 32)) s)).length = 48) by
        rw [hser2]; omega),
    if_pos (hser2 _), hdeser2]
  dsimp only
  simp only [Outcome.unwrapRes, Outcome.bind_ok]
  rw [ibeDecrypt_case1 M _ _ _ _ hsha (sigmaBytes_length rng) hm hbeq1
    (by rw [hbl1, hbl2, hbl1])]
  rfl

theorem tlock_roundtrip_g2 (M : Model) (rng : Nat → Nat) (s : M.R)
    (m : List Nat) (round : Nat) (hm : m.length = 16)
    (hsha : ∀ x, (M.sha x).length = 32)
    (hser1 : ∀ g, (M.ser1 g).length = 48)
    (hser2 : ∀ g, (M.ser2 g).length = 96)
    (hdeser1 : ∀ g, M.deser1 (M.ser1 g) = some g)
    (hdeser2 : ∀ g, M.deser2 (M.ser2 g) = some g)
    (hbeq2 : ∀ g : M.G2, M.beq2 g g = true)
    (hbl1 : ∀ (g : M.G1) (h : M.G2) (r : M.R),
      M.pair (M.smul1 g r) h = M.smulT (M.pair g h) r)
    (hbl2 : ∀ (g : M.G1) (h : M.G2) (r : M.R),
      M.pair g (M.smul2 h r) = M.smulT (M.pair g h) r)
    (hTcomm : ∀ (t : M.GT) (a b : M.R),
      M.smulT (M.smulT t a) b = M.smulT (M.smulT t b) a) :
    ∃ ct, tlockEncrypt M rng m (M.ser2 (M.smul2 M.gen2 s)) round = .ok ct ∧
      tlockDecrypt M ct (M.ser1 (M.smul1
        (M.mapToG1 ((M.sha (beBytes 8 round)).take 32)) s)) =
        .ok (trimTrailingZeros m) := by
  have hmsg : m.take 16 ++ List.replicate (16 - m.length) 0 = m := by
    rw [hm, List.take_of_length_le (by omega)]
    simp
  have hmask2len : ∀ t : M.GT, (encMask2 M t).length = 16 := fun t => by
    rw [encMask2, List.length_take, hsha]
    omega
  have hmask4len : (encMask4 M (sigmaBytes rng)).length = 16 := by
    rw [encMask4, List.length_take, hsha]
    omega
  have hv : ∀ t : M.GT, (List.zipWith Nat.xor (sigmaBytes rng)
      (encMask2 M t)).length = 16 := fun t => by
    rw [List.length_zipWith, sigmaBytes_length, hmask2len]
    exact Nat.min_self 16
  have hw : (List.zipWith Nat.xor m (encMask4 M (sigmaBytes rng))).length
      = 16 := by
    rw [List.length_zipWith, hm, hmask4len]
    exact Nat.min_self 16
  have henc : tlockEncrypt M rng m (M.ser2 (M.smul2 M.gen2 s)) round =
      .ok (M.ser2 (M.smul2 M.gen2 (encR M (sigmaBytes rng) m)) ++
        List.zipWith Nat.xor (sigmaBytes rng)
          (encMask2 M (M.smulT (M.pair
            (M.mapToG1 ((M.sha (beBytes 8 round)).take 32))
            (M.smul2 M.gen2 s))
            (encR M (sigmaBytes rng) m))) ++
        List.zipWith Nat.xor m (encMask4 M (sigmaBytes rng))) := by
    rw [tlockEncrypt, hmsg, timeLock]
    rw [GAffine.tryFromBytes,
      if_neg (show ¬((M.ser2 (M.smul2 M.gen2 s)).length = 48) by
        rw [hser2]; omega),
      if_pos (hser2 _), hdeser2]
    dsimp only
    simp only [Outcome.unwrapRes, Outcome.bind_ok]
    rw [if_neg (show ¬((M.sha (beBytes 8 round)).length < 32) by
      rw [hsha]; omega)]
    rw [ibeEncrypt_eq M _ _ _ _ hm hsha]
    rfl
  refine ⟨_, henc, ?_⟩
  rw [tlockDecrypt]
  rw [tlockDecryptParse_g2 M _ _ _ _
    (M.smul2 M.gen2 (encR M (sigmaBytes rng) m)) (hser2 _) (hdeser2 _)
    (hv _) hw (hser1 _)]
  simp only [Outcome.bind_ok]
  rw [timeUnlock]
  rw [GAffine.tryFromBytes, if_pos (hser1 _), hdeser1]
  dsimp only
  simp only [Outcome.unwrapRes, Outcome.bind_ok]
  rw [ibeDecrypt_case2 M _ _ _ _ hsha (sigmaBytes_length rng) hm hbeq2
    (by rw [hbl1, hbl2, hbl2, hTcomm])]
  rfl

instance : DecidableEq M0.R := inferInstanceAs (DecidableEq (ZMod 5))

instance : DecidableEq M0.GT := inferInstanceAs (DecidableEq (ZMod 5))

instance : Fintype M0.R := inferInstanceAs (Fintype (ZMod 5))

instance : Fintype M0.G1 := inferInstanceAs (Fintype (ZMod 5))

instance : Fintype M0.G2 := inferInstanceAs (Fintype (ZMod 5))

instance : Fintype M0.GT := inferInstanceAs (Fintype (ZMod 5))

/-- C1, confirmed. For both group assignments (48-byte public key with the
master in G1 and the signature in G2, and 96-byte public key with the
master in G2 and the signature in G1), for every round, every 16-byte
message, every RNG stream, and every model of the curve libraries in which
the pairing is bilinear, compressed (de)serialization round-trips with the
correct sizes, point equality is reflexive and hashes produce 32 bytes:
decrypting the tlock encryption of `m` under the public key `G·s` with the
round's BLS signature `H(id)·s` writes back exactly `m` modulo the
trailing-zero trimming of `tlock::decrypt`. -/
theorem tlock_encrypt_decrypt_roundtrip (M : Model) (rng : Nat → Nat)
    (s : M.R) (m : List Nat) (round : Nat) (hm : m.length = 16)
    (hsha : ∀ x, (M.sha x).length = 32)
    (hser1 : ∀ g, (M.ser1 g).length = 48)
    (hser2 : ∀ g, (M.ser2 g).length = 96)
    (hdeser1 : ∀ g, M.deser1 (M.ser1 g) = some g)
    (hdeser2 : ∀ g, M.deser2 (M.ser2 g) = some g)
    (hbeq1 : ∀ g : M.G1, M.beq1 g g = true)
    (hbeq2 : ∀ g : M.G2, M.beq2 g g = true)
    (hbl1 : ∀ (g : M.G1) (h : M.G2) (r : M.R),
      M.pair (M.smul1 g r) h = M.smulT (M.pair g h) r)
    (hbl2 : ∀ (g : M.G1) (h : M.G2) (r : M.R),
      M.pair g (M.smul2 h r) = M.smulT (M.pair g h) r)
    (hTcomm : ∀ (t : M.GT) (a b : M.R),
      M.smulT (M.smulT t a) b = M.smulT (M.smulT t b) a) :
    (∃ ct, tlockEncrypt M rng m (M.ser1 (M.smul1 M.gen1 s)) round = .ok ct ∧
      tlockDecrypt M ct (M.ser2 (M.smul2
        (M.mapToG2 ((M.sha (beBytes 8 round)).take 32)) s)) =
        .ok (trimTrailingZeros m))
    ∧ (∃ ct, tlockEncrypt M rng m (M.ser2 (M.smul2 M.gen2 s)) round = .ok ct ∧
      tlockDecrypt M ct (M.ser1 (M.smul1
        (M.mapToG1 ((M.sha (beBytes 8 round)).take 32)) s)) =
        .ok (trimTrailingZeros m)) :=
  ⟨tlock_roundtrip_g1 M rng s m round hm hsha hser1 hser2 hdeser1 hdeser2
    hbeq1 hbl1 hbl2,
   tlock_roundtrip_g2 M rng s m round hm hsha hser1 hser2 hdeser1 hdeser2
    hbeq2 hbl1 hbl2 hTcomm⟩

/-- C1, witness: the round-trip theorem applied at a concrete bilinear
model (all groups `ZMod 5`, the pairing and the scalar actions given by
multiplication), secret key `3`, round `1000` and message `[8; 16]`. -/
theorem tlock_encrypt_decrypt_roundtrip_witness :
    (List.replicate 16 (8 : Nat)).length = 16
    ∧ (∀ (g : M0.G1) (h : M0.G2) (r : M0.R),
        M0.pair (M0.smul1 g r) h = M0.smulT (M0.pair g h) r)
    ∧ ((∃ ct, tlockEncrypt M0 (fun _ => 0) (List.replicate 16 8)
          (M0.ser1 (M0.smul1 M0.gen1 3)) 1000 = .ok ct ∧
        tlockDecrypt M0 ct (M0.ser2 (M0.smul2
          (M0.mapToG2 ((M0.sha (beBytes 8 1000)).take 32)) 3)) =
          .ok (trimTrailingZeros (List.replicate 16 8)))
      ∧ (∃ ct, tlockEncrypt M0 (fun _ => 0) (List.replicate 16 8)
          (M0.ser2 (M0.smul2 M0.gen2 3)) 1000 = .ok ct ∧
        tlockDecrypt M0 ct (M0.ser1 (M0.smul1
          (M0.mapToG1 ((M0.sha (beBytes 8 1000)).take 32)) 3)) =
          .ok (trimTrailingZeros (List.replicate 16 8)))) :=
  ⟨by decide, by decide,
   tlock_encrypt_decrypt_roundtrip M0 (fun _ => 0) 3 (List.replicate 16 8)
     1000 (by decide) (fun _ => rfl) (by decide) (by decide) (by decide)
     (by decide) (by decide) (by decide) (by decide) (by decide) (by decide)⟩
